import Mathlib

/-!
Verification development for the `anot` repository (annotation finder).

This file gives a shallow embedding, in Lean 4, of the two source files
`src/hunks.rs` and `src/input.rs`, and proves properties of the embedded
functions.

Modelling conventions:

* Rust `String` / `&str` text is modelled as `List Char`.
* Rust byte buffers (`Vec<u8>`, subprocess stdout) are modelled as `List Nat`
  (each element intended `< 256`; other values simply fail UTF-8 validation,
  as invalid bytes do).
* `usize` is modelled as `Nat`.  The only `usize` operations performed by the
  sources are decimal parsing of regex-captured digit strings and range
  expansion; platform-width overflow is not modelled.
* Fallible Rust code (`Result`) is modelled with `Except` / `Option`.
* The effect of the `git diff` subprocess invocation is modelled by an
  explicit `GitOutcome` value describing what `Command::output()` produced;
  the rest of `get_modified_line_numbers` is a pure function of that outcome.
-/

namespace Anot

/-! ## Embedding of the hunk-header regex of `src/hunks.rs`

The source compiles the regex

  `@@ -\d+(?:,\d+)? \+(\d+)(?:,(\d+))? @@`

and iterates its non-overlapping, leftmost matches over the diff text
(`captures_iter`).  Every character of the pattern is ASCII, so byte-level
matching on UTF-8 text coincides with character-level matching.  The pattern
is deterministic in the following sense: each `\d+` is followed (inside the
pattern) by a non-digit character, so greedy maximal munch is exact, and each
optional group `(?:,\d+)?` is followed by a space, so the group matches
exactly when a comma followed by a digit is present (if the group is tried
and the continuation fails, the backtracking alternative without the group
necessarily fails at the comma as well).  The embedding below is the
resulting committed-choice matcher. -/

/-- Maximal digit prefix of a character list, together with the rest. -/
def takeDigits : List Char → List Char × List Char
  | [] => ([], [])
  | c :: cs =>
    if c.isDigit then
      let p := takeDigits cs
      (c :: p.1, p.2)
    else ([], c :: cs)

/-- Match a literal character sequence at the head of the input, returning
the rest of the input on success. -/
def stripLit : List Char → List Char → Option (List Char)
  | [], cs => some cs
  | _ :: _, [] => none
  | l :: ls, c :: cs => if c = l then stripLit ls cs else none

/-- Match `\d+` (one or more digits, maximal munch): returns the digit string
and the rest. -/
def numTok (cs : List Char) : Option (List Char × List Char) :=
  match takeDigits cs with
  | ([], _) => none
  | (d :: ds, r) => some (d :: ds, r)

/-- Match the optional group `(?:,\d+)?`: if a comma followed by at least one
digit is present it is consumed and the digit string returned, otherwise
nothing is consumed.  (In the source regex both occurrences of this group are
followed by a space, which makes this committed choice equivalent to
backtracking.) -/
def optCommaNum (cs : List Char) : Option (List Char) × List Char :=
  match cs with
  | [] => (none, [])
  | c :: rest =>
    if c = ',' then
      match numTok rest with
      | some (d, r) => (some d, r)
      | none => (none, c :: rest)
    else (none, c :: rest)

/-- The literal `@@ -` opening the hunk-header pattern. -/
def hdrOpen : List Char := ['@', '@', ' ', '-']

/-- The literal ` +` between the old side and the new side. -/
def hdrPlus : List Char := [' ', '+']

/-- The literal ` @@` closing the hunk-header pattern. -/
def hdrClose : List Char := [' ', '@', '@']

/-- Try to match the whole regex `@@ -\d+(?:,\d+)? \+(\d+)(?:,(\d+))? @@`
at the head of the input.  On success returns the two capture groups
(group 1: new-side start digits; group 2: optional new-side count digits)
and the input remaining after the match. -/
def matchHeaderAt (cs : List Char) : Option ((List Char × Option (List Char)) × List Char) :=
  match stripLit hdrOpen cs with
  | none => none
  | some r1 =>
    match numTok r1 with
    | none => none
    | some (_, r2) =>
      match stripLit hdrPlus (optCommaNum r2).2 with
      | none => none
      | some r4 =>
        match numTok r4 with
        | none => none
        | some (g1, r5) =>
          match stripLit hdrClose (optCommaNum r5).2 with
          | none => none
          | some r7 => some ((g1, (optCommaNum r5).1), r7)

/-- Fueled scanner: find the leftmost match, emit its captures, continue after
the end of the match (non-overlapping), exactly as `Regex::captures_iter`.
The fuel is an upper bound on the input length; `scanCaptures` instantiates it
with the length itself. -/
def scanGo : Nat → List Char → List (List Char × Option (List Char))
  | 0, _ => []
  | _ + 1, [] => []
  | fuel + 1, c :: cs =>
    match matchHeaderAt (c :: cs) with
    | some x => x.1 :: scanGo fuel x.2
    | none => scanGo fuel cs

/-- All capture groups of the non-overlapping leftmost matches of the
hunk-header regex in the given text, in order. -/
def scanCaptures (cs : List Char) : List (List Char × Option (List Char)) :=
  scanGo cs.length cs

/-- Decimal value of a digit string (the value computed by `str::parse`). -/
def natOfDigits (ds : List Char) : Nat :=
  ds.foldl (fun a c => a * 10 + (c.toNat - '0'.toNat)) 0

/-- Model of `str::parse::<usize>().ok()` on a capture: succeeds on a
non-empty all-digit string (captures always are, by the shape of the regex).
Platform-width overflow is not modelled (`usize` is modelled as `Nat`). -/
def parseNum (ds : List Char) : Option Nat :=
  if ds.isEmpty then none
  else if ds.all Char.isDigit then some (natOfDigits ds)
  else none

/-- The `(start, count)` pairs extracted from a diff text: for every match of
the hunk-header regex, group 1 parsed as the start and group 2 parsed as the
count, defaulting to 1 when the group is absent (or fails to parse), exactly
as lines 39–47 of `src/hunks.rs`. -/
def parseHunks (cs : List Char) : List (Nat × Nat) :=
  (scanCaptures cs).filterMap fun caps =>
    match parseNum caps.1 with
    | none => none
    | some start =>
      let count := (caps.2.bind parseNum).getD 1
      some (start, count)

/-- The set of modified line numbers extracted from a diff text: each
`(start, count)` pair is expanded to the range `start..(start+count)`
(`List.range' start count`) and the results are collected into a set
(lines 48–49 of `src/hunks.rs`; the Rust `HashSet` is modelled as
`Finset Nat`). -/
def linesOf (cs : List Char) : Finset Nat :=
  ((parseHunks cs).flatMap fun p => List.range' p.1 p.2).toFinset

/-! ## UTF-8 validation/decoding (model of `String::from_utf8`) -/

/-- A UTF-8 continuation byte. -/
def contByte (b : Nat) : Bool := 0x80 ≤ b && b ≤ 0xBF

/-- Standard UTF-8 decoding of a byte list, as validated by Rust's
`String::from_utf8`: rejects overlong encodings, surrogates and code points
above U+10FFFF; returns `none` exactly on invalid input. -/
def utf8Decode : List Nat → Option (List Char)
  | [] => some []
  | b :: bs =>
    if b ≤ 0x7F then
      match utf8Decode bs with
      | some cs => some (Char.ofNat b :: cs)
      | none => none
    else if 0xC2 ≤ b && b ≤ 0xDF then
      match bs with
      | b2 :: bs2 =>
        if contByte b2 then
          match utf8Decode bs2 with
          | some cs => some (Char.ofNat ((b - 0xC0) * 0x40 + (b2 - 0x80)) :: cs)
          | none => none
        else none
      | [] => none
    else if 0xE0 ≤ b && b ≤ 0xEF then
      match bs with
      | b2 :: b3 :: bs3 =>
        if (if b = 0xE0 then 0xA0 ≤ b2 && b2 ≤ 0xBF
            else if b = 0xED then 0x80 ≤ b2 && b2 ≤ 0x9F
            else contByte b2) && contByte b3 then
          match utf8Decode bs3 with
          | some cs =>
            some (Char.ofNat ((b - 0xE0) * 0x1000 + (b2 - 0x80) * 0x40 + (b3 - 0x80)) :: cs)
          | none => none
        else none
      | _ => none
    else if 0xF0 ≤ b && b ≤ 0xF4 then
      match bs with
      | b2 :: b3 :: b4 :: bs4 =>
        if (if b = 0xF0 then 0x90 ≤ b2 && b2 ≤ 0xBF
            else if b = 0xF4 then 0x80 ≤ b2 && b2 ≤ 0x8F
            else contByte b2) && contByte b3 && contByte b4 then
          match utf8Decode bs4 with
          | some cs =>
            some (Char.ofNat
              ((b - 0xF0) * 0x40000 + (b2 - 0x80) * 0x1000 + (b3 - 0x80) * 0x40 + (b4 - 0x80)) :: cs)
          | none => none
        else none
      | _ => none
    else none

/-! ## The full `get_modified_line_numbers` of `src/hunks.rs`

The subprocess invocation `Command::new("git").args(["diff", "--unified=0"])
.arg(file_path).output()` is an effect of the environment; its outcome is
modelled explicitly.  (The choice of working directory — the file's parent,
falling back to `"."` — only selects which invocation runs and does not
affect the pure computation modelled here.) -/

/-- Outcome of the `git diff` subprocess invocation, as observed by the code:
either `Command::output()` returned `Err` (the process could not be launched),
or it completed with an exit-status success flag and raw stdout bytes. -/
inductive GitOutcome where
  | launchFailure : GitOutcome
  | completed (success : Bool) (stdout : List Nat) : GitOutcome
deriving DecidableEq

/-- Model of `get_modified_line_numbers` (src/hunks.rs, lines 14–50) as a
function of the subprocess outcome.  A launch failure or a non-success exit
status yields the empty set (lines 20–28); stdout that is not valid UTF-8
yields the empty set (lines 30–33); otherwise the hunk headers of the decoded
diff text are parsed and expanded (lines 35–49).  The function is total: it
returns a set in every case, never an error. -/
def get_modified_line_numbers (git : GitOutcome) : Finset Nat :=
  match git with
  | .launchFailure => ∅
  | .completed success stdout =>
    if success then
      match utf8Decode stdout with
      | some diff => linesOf diff
      | none => ∅
    else ∅

/-! ## Embedding of `src/input.rs` -/

/-- The language variants of the `FileType` enum (src/input.rs, lines 7–12). -/
inductive FileType where
  | Python : FileType
  | Rust : FileType
  | JavaScript : FileType
deriving DecidableEq

/-- Split a path on `/` into components (model of the component iteration
underlying `std::path`). -/
def splitSlash : List Char → List (List Char)
  | [] => [[]]
  | c :: cs =>
    if c = '/' then [] :: splitSlash cs
    else
      match splitSlash cs with
      | [] => [[c]]
      | s :: ss => (c :: s) :: ss

/-- Model of `Path::file_name`: the last normal component of the path.
Empty components and `.` components are skipped (as `std::path::Components`
does); a path whose last component is `..` has no file name. -/
def fileNameOfPath (p : List Char) : Option (List Char) :=
  let comps := (splitSlash p).filter fun c => !c.isEmpty && c ≠ ['.']
  match comps.getLast? with
  | none => none
  | some c => if c = ['.', '.'] then none else some c

/-- Split a file name at its last dot: returns `(stem, ext)` where `ext` is
the part after the last dot, or `none` when the name contains no dot. -/
def lastDotSplit : List Char → Option (List Char × List Char)
  | [] => none
  | c :: cs =>
    match lastDotSplit cs with
    | some p => some (c :: p.1, p.2)
    | none => if c = '.' then some ([], cs) else none

/-- Model of `Path::extension` on a file name: the portion after the last
dot, unless there is no dot or the name begins with its only dot (hidden
files such as `.py` have no extension). -/
def extensionOfName (f : List Char) : Option (List Char) :=
  match lastDotSplit f with
  | some p => if p.1.isEmpty then none else some p.2
  | none => none

/-- Model of `path.extension().and_then(|ext| ext.to_str())` (src/input.rs,
line 17): the extension of the path's file name.  (`to_str` never fails in
the character-list model.) -/
def pathExtension (p : List Char) : Option (List Char) :=
  (fileNameOfPath p).bind extensionOfName

/-- Model of `FileType::try_from(&PathBuf)` (src/input.rs, lines 14–24):
case-sensitive exact match of the extension against `py`, `rs`, `js`;
everything else is an error. -/
def FileType.try_from (p : List Char) : Except String FileType :=
  match pathExtension p with
  | some e =>
    if e = "py".data then .ok .Python
    else if e = "rs".data then .ok .Rust
    else if e = "js".data then .ok .JavaScript
    else .error ("Invalid file extension: " ++ String.mk p)
  | none => .error ("Invalid file extension: " ++ String.mk p)

/-- Model of `determine_file_type` (src/input.rs, lines 70–72). -/
def determine_file_type (p : List Char) : Except String FileType :=
  FileType.try_from p

/-- One item yielded by the `WalkDir` iterator (src/input.rs, lines 76–80):
either an enumeration error for an entry, or an entry with its path and
whether its file type is a regular file. -/
inductive WalkEntry where
  | failure : WalkEntry
  | found (path : List Char) (regular : Bool) : WalkEntry
deriving DecidableEq

/-- Model of `scan_directory` (src/input.rs, lines 74–89) as a function of
the walk produced by `WalkDir`: erroneous entries are dropped
(`filter_map(|e| e.ok())`), non-files are skipped, files whose type cannot be
determined are skipped, and the remaining paths are pushed in order; the
result is always `Ok`. -/
def scan_directory (walk : List WalkEntry) : Except String (List (List Char)) :=
  Except.ok (walk.foldl
    (fun files e =>
      match e with
      | .failure => files
      | .found p regular =>
        if regular then
          if (determine_file_type p).isOk then files ++ [p] else files
        else files)
    [])

/-! ## Auxiliary definitions used by the statements

These describe the shape of well-formed hunk-header text, so that theorems
can quantify over all headers. -/

/-- A non-empty all-digit string (the shape of every number in a hunk
header). -/
def goodNum (ds : List Char) : Prop := ds ≠ [] ∧ ∀ c ∈ ds, c.isDigit = true

instance (ds : List Char) : Decidable (goodNum ds) :=
  decidable_of_iff (ds ≠ [] ∧ ∀ c ∈ ds, c.isDigit = true) Iff.rfl

/-- A well-formed optional count: absent, or a non-empty digit string. -/
def goodOptNum : Option (List Char) → Prop
  | none => True
  | some d => goodNum d

/-- Render an optional count as the text it occupies in a header: nothing, or
a comma followed by the digits. -/
def commaPart : Option (List Char) → List Char
  | none => []
  | some d => ',' :: d

/-- The text of a hunk header with old side `-o[,oc]` and new side
`+n[,nc]`. -/
def mkHdr (o : List Char) (oc : Option (List Char)) (n : List Char)
    (nc : Option (List Char)) : List Char :=
  hdrOpen ++ o ++ commaPart oc ++ hdrPlus ++ n ++ commaPart nc ++ hdrClose

/-- The first character of the list, if any, is not a digit. -/
def headNondigit : List Char → Prop
  | [] => True
  | c :: _ => c.isDigit = false

/-- The first character of the list, if any, is not a comma. -/
def headNotComma : List Char → Prop
  | [] => True
  | c :: _ => c ≠ ','

/-- The count denoted by an optional count capture: its decimal value, or the
default 1 when absent. -/
def countOfOpt : Option (List Char) → Nat
  | none => 1
  | some d => natOfDigits d

/-! ## Basic lemmas about the matcher -/

/-- The rest returned by `takeDigits` is no longer than the input. -/
theorem takeDigits_len (cs : List Char) : (takeDigits cs).2.length ≤ cs.length := by
  induction cs with
  | nil => simp [takeDigits]
  | cons c cs ih =>
    simp only [takeDigits]
    split
    · simpa using Nat.le_succ_of_le ih
    · simp

/-- `stripLit` consumes exactly the literal's length. -/
theorem stripLit_len (l : List Char) : ∀ cs r, stripLit l cs = some r →
    r.length + l.length = cs.length := by
  induction l with
  | nil => intro cs r h; simp [stripLit] at h; simp [h]
  | cons a ls ih =>
    intro cs r h
    cases cs with
    | nil => simp [stripLit] at h
    | cons c cs' =>
      simp only [stripLit] at h
      split at h
      · have := ih cs' r h
        simp only [List.length_cons]
        omega
      · exact absurd h (by simp)

/-- The rest returned by a successful `numTok` is no longer than the input. -/
theorem numTok_len (cs : List Char) (x : List Char × List Char) (h : numTok cs = some x) :
    x.2.length ≤ cs.length := by
  unfold numTok at h
  split at h
  · exact absurd h (by simp)
  · rename_i d ds r heq
    have hlen := takeDigits_len cs
    rw [heq] at hlen
    cases h
    exact hlen

/-- The rest returned by `optCommaNum` is no longer than the input. -/
theorem optCommaNum_len (cs : List Char) : (optCommaNum cs).2.length ≤ cs.length := by
  cases cs with
  | nil => simp [optCommaNum]
  | cons c rest =>
    simp only [optCommaNum]
    split
    · split
      · rename_i d r heq
        have h2 : r.length ≤ rest.length := numTok_len rest (d, r) heq
        show r.length ≤ rest.length + 1
        omega
      · simp
    · simp

/-- A successful header match strictly consumes input. -/
theorem matchHeaderAt_len (cs : List Char) (x : (List Char × Option (List Char)) × List Char)
    (h : matchHeaderAt cs = some x) : x.2.length < cs.length := by
  unfold matchHeaderAt at h
  split at h
  · exact absurd h (by simp)
  rename_i r1 h1
  split at h
  · exact absurd h (by simp)
  rename_i g r2 h2
  split at h
  · exact absurd h (by simp)
  rename_i r4 h4
  split at h
  · exact absurd h (by simp)
  rename_i g1 r5 h5
  split at h
  · exact absurd h (by simp)
  rename_i r7 h7
  cases h
  have e1 := stripLit_len hdrOpen cs r1 h1
  have e2 : r2.length ≤ r1.length := numTok_len r1 _ h2
  have e3 := optCommaNum_len r2
  have e4 := stripLit_len hdrPlus _ r4 h4
  have e5 : r5.length ≤ r4.length := numTok_len r4 _ h5
  have e6 := optCommaNum_len r5
  have e7 := stripLit_len hdrClose _ r7 h7
  simp only [hdrOpen, hdrPlus, hdrClose, List.length_cons, List.length_nil] at e1 e4 e7
  show r7.length < cs.length
  omega

/-- A header match can only start at an `@` character. -/
theorem matchHeaderAt_not_at (c : Char) (cs : List Char) (h : c ≠ '@') :
    matchHeaderAt (c :: cs) = none := by
  unfold matchHeaderAt
  have : stripLit hdrOpen (c :: cs) = none := by
    simp only [hdrOpen, stripLit, if_neg h]
  rw [this]

/-- The fuel of `scanGo` is irrelevant as long as it bounds the input length. -/
theorem scanGo_irrel (f₁ : Nat) : ∀ f₂ cs, cs.length ≤ f₁ → cs.length ≤ f₂ →
    scanGo f₁ cs = scanGo f₂ cs := by
  induction f₁ with
  | zero =>
    intro f₂ cs h1 _
    have : cs = [] := List.length_eq_zero.mp (Nat.le_zero.mp h1)
    subst this
    cases f₂ <;> simp [scanGo]
  | succ f₁ ih =>
    intro f₂ cs h1 h2
    cases cs with
    | nil => cases f₂ <;> simp [scanGo]
    | cons c cs' =>
      cases f₂ with
      | zero => simp at h2
      | succ f₂' =>
        simp only [scanGo]
        cases hm : matchHeaderAt (c :: cs') with
        | some x =>
          have hlt := matchHeaderAt_len _ _ hm
          simp only [List.length_cons] at hlt h1 h2
          show x.1 :: scanGo f₁ x.2 = x.1 :: scanGo f₂' x.2
          rw [ih f₂' x.2 (by omega) (by omega)]
        | none =>
          simp only [List.length_cons] at h1 h2
          show scanGo f₁ cs' = scanGo f₂' cs'
          exact ih f₂' cs' (by omega) (by omega)

/-- One-step unfolding of `scanCaptures`: try a match at the current position;
on success emit the captures and continue after the match, otherwise advance
one character. -/
theorem scanCaptures_cons (c : Char) (cs : List Char) :
    scanCaptures (c :: cs) =
      match matchHeaderAt (c :: cs) with
      | some x => x.1 :: scanCaptures x.2
      | none => scanCaptures cs := by
  show scanGo (cs.length + 1) (c :: cs) = _
  simp only [scanGo]
  cases hm : matchHeaderAt (c :: cs) with
  | some x =>
    have hlt := matchHeaderAt_len _ _ hm
    simp only [List.length_cons] at hlt
    simp only [scanCaptures]
    rw [scanGo_irrel cs.length x.2.length x.2 (by omega) le_rfl]
  | none => rfl

/-- Scanning the empty text yields nothing. -/
theorem scanCaptures_nil : scanCaptures [] = [] := rfl

/-! ## Well-formed hunk headers and how the scanner treats them -/

theorem headNondigit_hdrPlus (w : List Char) : headNondigit (hdrPlus ++ w) := by
  show (' ').isDigit = false
  decide

theorem headNotComma_hdrPlus (w : List Char) : headNotComma (hdrPlus ++ w) := by
  show (' ') ≠ ','
  decide

theorem headNondigit_hdrClose (w : List Char) : headNondigit (hdrClose ++ w) := by
  show (' ').isDigit = false
  decide

theorem headNotComma_hdrClose (w : List Char) : headNotComma (hdrClose ++ w) := by
  show (' ') ≠ ','
  decide

theorem headNondigit_commaPart (oc : Option (List Char)) (x : List Char)
    (hx : headNondigit x) : headNondigit (commaPart oc ++ x) := by
  cases oc with
  | none => exact hx
  | some d =>
    show (',').isDigit = false
    decide

/-- Stripping a literal off a string that starts with it succeeds. -/
theorem stripLit_append (l cs : List Char) : stripLit l (l ++ cs) = some cs := by
  induction l with
  | nil => rfl
  | cons a ls ih => simp [stripLit, ih]

/-- `takeDigits` splits an all-digit prefix exactly at a non-digit
boundary. -/
theorem takeDigits_append (ds rest : List Char) (hds : ∀ c ∈ ds, c.isDigit = true)
    (hrest : headNondigit rest) : takeDigits (ds ++ rest) = (ds, rest) := by
  induction ds with
  | nil =>
    cases rest with
    | nil => rfl
    | cons c r =>
      have : c.isDigit = false := hrest
      simp [takeDigits, this]
  | cons d ds ih =>
    have hd : d.isDigit = true := hds d (by simp)
    have ih' := ih fun c hc => hds c (by simp [hc])
    simp [takeDigits, hd, ih']

/-- `numTok` reads a well-formed number exactly up to a non-digit
boundary. -/
theorem numTok_append (ds rest : List Char) (hds : goodNum ds)
    (hrest : headNondigit rest) : numTok (ds ++ rest) = some (ds, rest) := by
  unfold numTok
  rw [takeDigits_append ds rest hds.2 hrest]
  cases ds with
  | nil => exact absurd rfl hds.1
  | cons d ds => rfl

/-- `optCommaNum` reads exactly the rendered optional count when the
following text starts with neither a digit nor a comma. -/
theorem optCommaNum_append (oc : Option (List Char)) (rest : List Char)
    (hoc : goodOptNum oc) (hnd : headNondigit rest) (hncm : headNotComma rest) :
    optCommaNum (commaPart oc ++ rest) = (oc, rest) := by
  cases oc with
  | none =>
    show optCommaNum rest = (none, rest)
    unfold optCommaNum
    match rest, hnd, hncm with
    | [], _, _ => rfl
    | c :: r, _, hncm => simp [if_neg hncm]
  | some d =>
    show optCommaNum (',' :: (d ++ rest)) = (some d, rest)
    simp only [optCommaNum, if_true, numTok_append d rest hoc hnd]

/-- The header matcher accepts a well-formed rendered header at the start of
the input, captures exactly its new-side start and count, and consumes
exactly the header. -/
theorem matchHeaderAt_mkHdr (o : List Char) (oc : Option (List Char)) (n : List Char)
    (nc : Option (List Char)) (tail : List Char) (ho : goodNum o) (hoc : goodOptNum oc)
    (hn : goodNum n) (hnc : goodOptNum nc) :
    matchHeaderAt (mkHdr o oc n nc ++ tail) = some ((n, nc), tail) := by
  have hX : mkHdr o oc n nc ++ tail
      = hdrOpen ++ (o ++ (commaPart oc ++ (hdrPlus ++ (n ++ (commaPart nc ++ (hdrClose ++ tail)))))) := by
    simp [mkHdr, List.append_assoc]
  have s1 := stripLit_append hdrOpen
    (o ++ (commaPart oc ++ (hdrPlus ++ (n ++ (commaPart nc ++ (hdrClose ++ tail))))))
  have s2 : numTok (o ++ (commaPart oc ++ (hdrPlus ++ (n ++ (commaPart nc ++ (hdrClose ++ tail))))))
      = some (o, commaPart oc ++ (hdrPlus ++ (n ++ (commaPart nc ++ (hdrClose ++ tail))))) :=
    numTok_append _ _ ho (headNondigit_commaPart _ _ (headNondigit_hdrPlus _))
  have s3 : optCommaNum (commaPart oc ++ (hdrPlus ++ (n ++ (commaPart nc ++ (hdrClose ++ tail)))))
      = (oc, hdrPlus ++ (n ++ (commaPart nc ++ (hdrClose ++ tail)))) :=
    optCommaNum_append _ _ hoc (headNondigit_hdrPlus _) (headNotComma_hdrPlus _)
  have s4 := stripLit_append hdrPlus (n ++ (commaPart nc ++ (hdrClose ++ tail)))
  have s5 : numTok (n ++ (commaPart nc ++ (hdrClose ++ tail)))
      = some (n, commaPart nc ++ (hdrClose ++ tail)) :=
    numTok_append _ _ hn (headNondigit_commaPart _ _ (headNondigit_hdrClose _))
  have s6 : optCommaNum (commaPart nc ++ (hdrClose ++ tail)) = (nc, hdrClose ++ tail) :=
    optCommaNum_append _ _ hnc (headNondigit_hdrClose _) (headNotComma_hdrClose _)
  have s7 := stripLit_append hdrClose tail
  rw [hX]
  simp only [matchHeaderAt, s1, s2, s3, s4, s5, s6, s7]

/-- Scanning a text that starts with a well-formed header emits that header's
captures and continues after it. -/
theorem scanCaptures_mkHdr (o : List Char) (oc : Option (List Char)) (n : List Char)
    (nc : Option (List Char)) (tail : List Char) (ho : goodNum o) (hoc : goodOptNum oc)
    (hn : goodNum n) (hnc : goodOptNum nc) :
    scanCaptures (mkHdr o oc n nc ++ tail) = (n, nc) :: scanCaptures tail := by
  have h := matchHeaderAt_mkHdr o oc n nc tail ho hoc hn hnc
  have hcons : mkHdr o oc n nc ++ tail
      = '@' :: ('@' :: (' ' :: ('-' :: (o ++ (commaPart oc ++ (hdrPlus ++ (n ++ (commaPart nc ++ (hdrClose ++ tail))))))))) := by
    simp [mkHdr, hdrOpen, List.append_assoc]
  rw [hcons] at h
  rw [hcons, scanCaptures_cons]
  simp only [h]

/-- Text containing no `@` character produces no matches when prepended to a
scan. -/
theorem scanCaptures_junk (junk rest : List Char) (h : ∀ c ∈ junk, c ≠ '@') :
    scanCaptures (junk ++ rest) = scanCaptures rest := by
  induction junk with
  | nil => rfl
  | cons c js ih =>
    have hc : c ≠ '@' := h c (by simp)
    have ih' := ih fun c hc => h c (by simp [hc])
    rw [List.cons_append, scanCaptures_cons, matchHeaderAt_not_at c (js ++ rest) hc, ih']

/-! ## Lemmas at the `parseHunks` / `linesOf` level -/

/-- `parseNum` succeeds on every well-formed digit string. -/
theorem parseNum_good (ds : List Char) (h : goodNum ds) :
    parseNum ds = some (natOfDigits ds) := by
  unfold parseNum
  rw [if_neg (by simpa using h.1), if_pos (by simpa [List.all_eq_true] using h.2)]

/-- Parsing a text that starts with a well-formed header yields that header's
new-side `(start, count)` pair followed by the parse of the rest. -/
theorem parseHunks_mkHdr (o : List Char) (oc : Option (List Char)) (n : List Char)
    (nc : Option (List Char)) (tail : List Char) (ho : goodNum o) (hoc : goodOptNum oc)
    (hn : goodNum n) (hnc : goodOptNum nc) :
    parseHunks (mkHdr o oc n nc ++ tail)
      = (natOfDigits n, countOfOpt nc) :: parseHunks tail := by
  unfold parseHunks
  rw [scanCaptures_mkHdr o oc n nc tail ho hoc hn hnc, List.filterMap_cons]
  simp only [parseNum_good n hn]
  cases nc with
  | none => rfl
  | some d => simp [parseNum_good d hnc, countOfOpt]

/-- Text with no `@` character contributes no hunks when prepended. -/
theorem parseHunks_junk (junk rest : List Char) (h : ∀ c ∈ junk, c ≠ '@') :
    parseHunks (junk ++ rest) = parseHunks rest := by
  unfold parseHunks
  rw [scanCaptures_junk junk rest h]

/-- `List.range'` as a `Finset`: the interval `[s, s+c)`. -/
theorem range'_toFinset (s c : Nat) : (List.range' s c).toFinset = Finset.Ico s (s + c) := by
  ext n
  simp [List.mem_range'_1, Finset.mem_Ico]

/-- Membership in the modified-line set: exactly the numbers covered by the
new-side range of some parsed hunk header. -/
theorem mem_linesOf (n : Nat) (cs : List Char) :
    n ∈ linesOf cs ↔ ∃ p ∈ parseHunks cs, p.1 ≤ n ∧ n < p.1 + p.2 := by
  simp [linesOf, List.mem_flatMap, List.mem_range'_1]

/-- The modified-line set is the union, over the parsed hunks, of the
intervals `[start, start+count)`. -/
theorem linesOf_eq_foldr (cs : List Char) :
    linesOf cs
      = (parseHunks cs).foldr (fun p s => Finset.Ico p.1 (p.1 + p.2) ∪ s) ∅ := by
  unfold linesOf
  induction parseHunks cs with
  | nil => rfl
  | cons p l ih =>
    rw [List.flatMap_cons, List.toFinset_append, List.foldr_cons, ih, range'_toFinset]

/-- A well-formed header prepended to a text contributes exactly the interval
of its new side. -/
theorem linesOf_mkHdr (o : List Char) (oc : Option (List Char)) (n : List Char)
    (nc : Option (List Char)) (tail : List Char) (ho : goodNum o) (hoc : goodOptNum oc)
    (hn : goodNum n) (hnc : goodOptNum nc) :
    linesOf (mkHdr o oc n nc ++ tail)
      = Finset.Ico (natOfDigits n) (natOfDigits n + countOfOpt nc) ∪ linesOf tail := by
  unfold linesOf
  rw [parseHunks_mkHdr o oc n nc tail ho hoc hn hnc, List.flatMap_cons, List.toFinset_append,
    range'_toFinset]

/-- Text with no `@` character does not affect the modified-line set when
prepended. -/
theorem linesOf_junk (junk rest : List Char) (h : ∀ c ∈ junk, c ≠ '@') :
    linesOf (junk ++ rest) = linesOf rest := by
  unfold linesOf
  rw [parseHunks_junk junk rest h]

/-! ## Lemmas about `scan_directory` -/

/-- The push-loop of `scan_directory` computes a `filterMap`: each walk item
contributes its path exactly when it is a non-erroneous regular file whose
type can be determined. -/
theorem scanDirFold (walk : List WalkEntry) : ∀ acc : List (List Char),
    walk.foldl
      (fun files e =>
        match e with
        | .failure => files
        | .found p regular =>
          if regular then
            if (determine_file_type p).isOk then files ++ [p] else files
          else files)
      acc
    = acc ++ walk.filterMap fun e =>
        match e with
        | .failure => none
        | .found p regular =>
          if regular && (determine_file_type p).isOk then some p else none := by
  induction walk with
  | nil => intro acc; simp
  | cons e t ih =>
    intro acc
    cases e with
    | failure => simpa using ih acc
    | found p regular =>
      cases regular with
      | false => simpa using ih acc
      | true =>
        cases hok : (determine_file_type p).isOk with
        | true => simp [hok, ih, List.append_assoc]
        | false => simpa [hok] using ih acc

/-! ## Claim theorems -/

/-- Claim C1: modified-line extraction expands each parsed hunk header's
new-side `(start, count)` pair — with the count defaulting to 1 when omitted —
into the contiguous range `[start, start+count)` and returns the union of all
such ranges; the diff text `@@ -5,2 +5,3 @@` yields `{5, 6, 7}` and the diff
text `@@ -1 +1 @@` yields `{1}`. -/
theorem claim_C1 :
    (∀ cs : List Char,
      linesOf cs = (parseHunks cs).foldr (fun p s => Finset.Ico p.1 (p.1 + p.2) ∪ s) ∅) ∧
    (∀ o oc n tail, goodNum o → goodOptNum oc → goodNum n →
      linesOf (mkHdr o oc n none ++ tail)
        = Finset.Ico (natOfDigits n) (natOfDigits n + 1) ∪ linesOf tail) ∧
    linesOf "@@ -5,2 +5,3 @@".data = {5, 6, 7} ∧
    linesOf "@@ -1 +1 @@".data = {1} := by
  refine ⟨linesOf_eq_foldr, ?_, by decide, by decide⟩
  intro o oc n tail ho hoc hn
  simpa [countOfOpt] using linesOf_mkHdr o oc n none tail ho hoc hn trivial

/-- Witness for C1: instantiation of the default-count-1 clause at the
concrete header `@@ -9,2 +4 @@`. -/
theorem claim_C1_witness :
    linesOf (mkHdr ['9'] (some ['2']) ['4'] none ++ [])
      = Finset.Ico (natOfDigits ['4']) (natOfDigits ['4'] + 1) ∪ linesOf [] :=
  claim_C1.2.1 ['9'] (some ['2']) ['4'] []
    (by decide) (show goodNum ['2'] by decide) (by decide)

/-- Claim C2: whenever the diff invocation fails — launch failure, non-zero
exit status, or stdout that is not valid UTF-8 — `get_modified_line_numbers`
returns the empty set.  (That it never returns an error and never panics is
reflected in its total type `GitOutcome → Finset Nat`.) -/
theorem claim_C2 :
    (∀ g : GitOutcome, g = GitOutcome.launchFailure → get_modified_line_numbers g = ∅) ∧
    (∀ out : List Nat, get_modified_line_numbers (GitOutcome.completed false out) = ∅) ∧
    (∀ out : List Nat, utf8Decode out = none →
      get_modified_line_numbers (GitOutcome.completed true out) = ∅) := by
  refine ⟨?_, ?_, ?_⟩
  · intro g h
    subst h
    rfl
  · intro out
    rfl
  · intro out h
    simp [get_modified_line_numbers, h]

/-- Witness for C2: a launch failure and a concrete invalid-UTF-8 stdout both
yield the empty set. -/
theorem claim_C2_witness :
    get_modified_line_numbers GitOutcome.launchFailure = ∅ ∧
    get_modified_line_numbers (GitOutcome.completed true [0xFF]) = ∅ :=
  ⟨claim_C2.1 _ rfl, claim_C2.2.2 [0xFF] (by decide)⟩

/-- Claim C3: classification is determined solely by the file extension via
case-sensitive exact match — `py` ↦ Python, `rs` ↦ Rust, `js` ↦ JavaScript,
every other path (including the uppercase `PY`) is an error. -/
theorem claim_C3 :
    (∀ p q : List Char, pathExtension p = pathExtension q →
      (FileType.try_from p).toOption = (FileType.try_from q).toOption) ∧
    (∀ p : List Char, pathExtension p = some "py".data →
      FileType.try_from p = .ok .Python) ∧
    (∀ p : List Char, pathExtension p = some "rs".data →
      FileType.try_from p = .ok .Rust) ∧
    (∀ p : List Char, pathExtension p = some "js".data →
      FileType.try_from p = .ok .JavaScript) ∧
    (∀ p : List Char, pathExtension p ≠ some "py".data →
      pathExtension p ≠ some "rs".data → pathExtension p ≠ some "js".data →
      (FileType.try_from p).isOk = false) ∧
    (FileType.try_from "a.PY".data).isOk = false := by
  refine ⟨?_, ?_, ?_, ?_, ?_, by decide⟩
  · intro p q h
    cases hq : pathExtension q with
    | none =>
      simp only [FileType.try_from, h, hq]
      rfl
    | some e =>
      simp only [FileType.try_from, h, hq]
      split_ifs <;> rfl
  · intro p h
    simp [FileType.try_from, h]
  · intro p h
    simp [FileType.try_from, h]
  · intro p h
    simp [FileType.try_from, h]
  · intro p h1 h2 h3
    cases he : pathExtension p with
    | none =>
      simp only [FileType.try_from, he]
      rfl
    | some e =>
      have e1 : e ≠ "py".data := by intro hh; exact h1 (by rw [he, hh])
      have e2 : e ≠ "rs".data := by intro hh; exact h2 (by rw [he, hh])
      have e3 : e ≠ "js".data := by intro hh; exact h3 (by rw [he, hh])
      simp only [FileType.try_from, he, if_neg e1, if_neg e2, if_neg e3]
      rfl

/-- Witness for C3: concrete classifications for each clause. -/
theorem claim_C3_witness :
    (FileType.try_from "a.py".data).toOption = (FileType.try_from "b/c.py".data).toOption ∧
    FileType.try_from "a.py".data = .ok .Python ∧
    FileType.try_from "a.rs".data = .ok .Rust ∧
    FileType.try_from "a.js".data = .ok .JavaScript ∧
    (FileType.try_from "a.txt".data).isOk = false :=
  ⟨claim_C3.1 _ _ (by decide), claim_C3.2.1 _ (by decide), claim_C3.2.2.1 _ (by decide),
    claim_C3.2.2.2.1 _ (by decide),
    claim_C3.2.2.2.2.1 _ (by decide) (by decide) (by decide)⟩

/-- Claim C4: every number in the result comes from the new-side range of a
parsed hunk header (nothing else contributes); for a matched header only the
new-side start and count determine the contributed range — the old-side
numbers can be changed arbitrarily without affecting the result — and text
containing no header material (no `@`) has no effect. -/
theorem claim_C4 :
    (∀ (cs : List Char) (n : Nat), n ∈ linesOf cs →
      ∃ p ∈ parseHunks cs, p.1 ≤ n ∧ n < p.1 + p.2) ∧
    (∀ o₁ oc₁ o₂ oc₂ n nc tail, goodNum o₁ → goodOptNum oc₁ → goodNum o₂ → goodOptNum oc₂ →
      goodNum n → goodOptNum nc →
      linesOf (mkHdr o₁ oc₁ n nc ++ tail) = linesOf (mkHdr o₂ oc₂ n nc ++ tail)) ∧
    (∀ junk rest : List Char, (∀ c ∈ junk, c ≠ '@') →
      linesOf (junk ++ rest) = linesOf rest) := by
  refine ⟨fun cs n h => (mem_linesOf n cs).mp h, ?_, linesOf_junk⟩
  intro o₁ oc₁ o₂ oc₂ n nc tail h1 h2 h3 h4 h5 h6
  rw [linesOf_mkHdr o₁ oc₁ n nc tail h1 h2 h5 h6, linesOf_mkHdr o₂ oc₂ n nc tail h3 h4 h5 h6]

/-- Witness for C4: the three clauses at concrete inputs — line 6 of
`@@ -5,2 +5,3 @@` comes from a parsed hunk; replacing old side `-1` by
`-88,4` leaves the result unchanged; and a junk prefix has no effect. -/
theorem claim_C4_witness :
    (∃ p ∈ parseHunks "@@ -5,2 +5,3 @@".data, p.1 ≤ 6 ∧ 6 < p.1 + p.2) ∧
    linesOf (mkHdr ['1'] none ['7'] (some ['3']) ++ [])
      = linesOf (mkHdr ['8', '8'] (some ['4']) ['7'] (some ['3']) ++ []) ∧
    linesOf (['x', '\n'] ++ "@@ -1 +2 @@".data) = linesOf "@@ -1 +2 @@".data :=
  ⟨claim_C4.1 _ 6 (by decide),
    claim_C4.2.1 ['1'] none ['8', '8'] (some ['4']) ['7'] (some ['3']) []
      (by decide) trivial (by decide) (show goodNum ['4'] by decide)
      (by decide) (show goodNum ['3'] by decide),
    claim_C4.2.2 ['x', '\n'] _ (by decide)⟩

/-- Counterexample to C5 as stated: over arbitrary diff output the returned
set need not contain only positive numbers — a successful invocation whose
stdout is the text `@@ -1 +0,2 @@` parses to new-side start 0, count 2, and
the returned set contains 0. -/
theorem claim_C5_cex :
    ¬ ∀ n ∈ get_modified_line_numbers
        (GitOutcome.completed true ("@@ -1 +0,2 @@".data.map Char.toNat)), 0 < n := by
  decide

/-- Claim C5 (amended): every element of the returned set lies in the
new-side range of some parsed hunk header, so whenever every parsed hunk
header has a positive new-side start — as in every diff git actually emits,
where start 0 occurs only with count 0 — every element of the returned set is
strictly positive. -/
theorem claim_C5 :
    ∀ cs : List Char, (∀ p ∈ parseHunks cs, 0 < p.1) → ∀ n ∈ linesOf cs, 0 < n := by
  intro cs h n hn
  obtain ⟨p, hp, h1, _⟩ := (mem_linesOf n cs).mp hn
  exact lt_of_lt_of_le (h p hp) h1

/-- Witness for C5 (amended): on `@@ -5,2 +5,3 @@` all parsed starts are
positive; 6 is in the returned set and is positive. -/
theorem claim_C5_witness :
    6 ∈ linesOf "@@ -5,2 +5,3 @@".data ∧ 0 < 6 :=
  ⟨by decide, claim_C5 "@@ -5,2 +5,3 @@".data (by decide) 6 (by decide)⟩

/-- Claim C6: `scan_directory` returns exactly the non-erroneous regular
files of the walk whose extension determines a supported file type, in walk
order: unsupported files and erroneous entries are silently omitted, never
reported as errors. -/
theorem claim_C6 :
    ∀ walk : List WalkEntry,
      scan_directory walk = Except.ok (walk.filterMap fun e =>
        match e with
        | .failure => none
        | .found p regular =>
          if regular && (determine_file_type p).isOk then some p else none) := by
  intro walk
  unfold scan_directory
  rw [scanDirFold walk []]
  rw [List.nil_append]

/-- Claim C7: hunk parsing and classification are deterministic — equal
inputs yield equal outputs. -/
theorem claim_C7 :
    (∀ d₁ d₂ : List Char, d₁ = d₂ → linesOf d₁ = linesOf d₂) ∧
    (∀ p₁ p₂ : List Char, p₁ = p₂ → FileType.try_from p₁ = FileType.try_from p₂) :=
  ⟨fun _ _ h => congrArg _ h, fun _ _ h => congrArg _ h⟩

/-- Witness for C7: determinism at concrete inputs. -/
theorem claim_C7_witness :
    linesOf "@@ -1 +1 @@".data = linesOf "@@ -1 +1 @@".data ∧
    FileType.try_from "a.py".data = FileType.try_from "a.py".data :=
  ⟨claim_C7.1 _ _ rfl, claim_C7.2 _ _ rfl⟩

/-- Claim C8: a hunk header with explicit new-side count 0 (a pure-deletion
hunk such as `@@ -3,2 +2,0 @@`) is parsed — its pair `(2, 0)` appears — but
contributes no line numbers, since the range `[2, 2+0)` is empty. -/
theorem claim_C8 :
    parseHunks "@@ -3,2 +2,0 @@".data = [(2, 0)] ∧
    linesOf "@@ -3,2 +2,0 @@".data = (∅ : Finset Nat) :=
  ⟨by decide, by decide⟩

/-- Claim C9: `scan_directory` always returns `Ok`; in particular a walk
consisting only of enumeration failures (a root that cannot be enumerated at
all) yields `Ok` with the empty list. -/
theorem claim_C9 :
    (∀ walk : List WalkEntry, ∃ l, scan_directory walk = Except.ok l) ∧
    (∀ walk : List WalkEntry, (∀ e ∈ walk, e = WalkEntry.failure) →
      scan_directory walk = Except.ok []) := by
  constructor
  · intro walk
    exact ⟨_, rfl⟩
  · intro walk h
    unfold scan_directory
    rw [scanDirFold walk [], List.nil_append]
    have : ∀ e ∈ walk, (fun e : WalkEntry =>
        match e with
        | .failure => none
        | .found p regular =>
          if regular && (determine_file_type p).isOk then some p else none) e = none := by
      intro e he
      rw [h e he]
    rw [List.filterMap_eq_nil_iff.mpr this]

/-- Witness for C9: concrete all-failure walks. -/
theorem claim_C9_witness :
    (∃ l, scan_directory [WalkEntry.failure] = Except.ok l) ∧
    scan_directory [WalkEntry.failure, WalkEntry.failure] = Except.ok [] :=
  ⟨claim_C9.1 _, claim_C9.2 _ (by decide)⟩

/-- Claim C10: only the final dot-separated component of the file name is
considered: `.py` (hidden, no stem) and `py` (no dot) are unsupported,
`a.py.txt` is unsupported, `a.txt.py` is Python. -/
theorem claim_C10 :
    (FileType.try_from ".py".data).toOption = none ∧
    (FileType.try_from "py".data).toOption = none ∧
    (FileType.try_from "a.py.txt".data).toOption = none ∧
    (FileType.try_from "a.txt.py".data).toOption = some FileType.Python :=
  ⟨by decide, by decide, by decide, by decide⟩

end Anot
